import Mathlib

/-!
Verification of the disktest parallel chunk-generation pipeline.

The Rust sources are shallowly embedded: bytes are `Nat` values, Rust
`Vec<u8>` buffers are `List Nat`, the MPSC slots of the buffer cache are
FIFO lists, and the per-thread generator keystreams are abstract functions
`Nat → Nat → Nat` (worker id → byte position → byte), since the concrete
generator primitives live outside the embedded core and the spec treats
them as black-box seekable keystreams.
-/

namespace Disktest

/-! ## Buffer cache (src/bufcache.rs)

`BufCacheCons::pull` receives recycled buffers over an mpsc channel
(modelled as a FIFO list of buffers) and resizes the buffer it obtains
(or a freshly allocated empty one) to the requested length. -/

/-- Rust `Vec::resize(n, 0)` as performed by `BufCacheCons::pull`: the source
only calls `resize` when the length differs, and `resize` truncates or
extends with zero bytes. -/
def vecResize (buf : List Nat) (n : Nat) : List Nat :=
  if buf.length = n then buf
  else buf.take n ++ List.replicate (n - buf.length) 0

/-- Embedding of `BufCacheCons::pull(buf_len)` from src/bufcache.rs lines 62-71:
`try_recv` yields the oldest recycled buffer if one is queued, otherwise a
fresh `Vec::with_capacity(buf_len)` (which has length 0); the buffer is
then resized to `buf_len`. Returns the buffer and the remaining slot. -/
def bufCacheConsPull (slot : List (List Nat)) (bufLen : Nat) :
    List Nat × List (List Nat) :=
  match slot with
  | [] => (vecResize [] bufLen, [])
  | b :: rest => (vecResize b bufLen, rest)

theorem vecResize_length (buf : List Nat) (n : Nat) :
    (vecResize buf n).length = n := by
  unfold vecResize
  split
  · assumption
  · simp [List.length_take, List.length_replicate]
    omega

theorem vecResize_nil (n : Nat) : vecResize [] n = List.replicate n 0 := by
  unfold vecResize
  split
  · simp_all
  · simp

/-- C8: For every desired length n, the buffer-cache consumer's pull(n)
returns a buffer of exactly n bytes: if a recycled buffer is available in
the slot it is reused (resized to n) and removed from the slot, otherwise
a fresh (zero-filled) buffer is produced. -/
theorem bufCacheConsPull_spec (slot : List (List Nat)) (n : Nat) :
    (bufCacheConsPull slot n).1.length = n ∧
    (slot = [] → bufCacheConsPull slot n = (List.replicate n 0, [])) ∧
    (∀ b rest, slot = b :: rest →
      bufCacheConsPull slot n = (vecResize b n, rest)) := by
  refine ⟨?_, ?_, ?_⟩
  · cases slot <;> simp [bufCacheConsPull, vecResize_length]
  · intro h; subst h; simp [bufCacheConsPull, vecResize_nil]
  · intro b rest h; subst h; simp [bufCacheConsPull]

/-! ## Worker stream (src/stream.rs)

One generator per worker, one producer thread feeding a channel. The
producer's interaction with the consumer-visible state (error flag, level
counter, queued chunks) is embedded as an explicit step function; the
`~10 ms` sleep is a no-op step. -/

/-- The constant `DtStream::LEVEL_THRES` (src/stream.rs line 116), an `isize`. -/
def LEVEL_THRES : Int := 8

/-- Modelled from the spec: the concrete generator primitives
(ChaCha8/12/20, Crc, from the missing generator.rs) and the KDF (missing
kdf.rs) are external to the embedded core; the spec treats them as
black-box seekable keystreams where `seek(o)` may fail only outside the
generator's supported domain and where, after a successful `seek(o)`,
successive `next` calls yield the bytes of the infinite keystream from
position `o` on. `stream p` is the keystream byte at position `p`; this
is a generator as the pipeline sees it. -/
structure GenModel where
  seekOk : Nat → Bool
  stream : Nat → Nat

/-- The chunk type `DtStreamChunk` (src/stream.rs lines 41-44). -/
structure DtStreamChunkM where
  index : Nat
  data : List Nat
deriving DecidableEq

/-- The `chunk_factor × base_size` bytes a generator with keystream
`stream` produces for the worker's `n`-th chunk after seeking to `off`
(src/stream.rs line 82): bytes `[off + n·cs, off + (n+1)·cs)` of the
keystream. -/
def chunkData (stream : Nat → Nat) (cs off n : Nat) : List Nat :=
  (List.range cs).map (fun b => stream (off + n * cs + b))

/-- Producer-side state of one worker: error flag, exited flag, abort
flag, level counter (an `isize` in the source), chunks sent but not yet
received, and the local chunk index. -/
structure ProdState where
  error : Bool
  exited : Bool
  abort : Bool
  level : Int
  queue : List DtStreamChunkM
  index : Nat
deriving DecidableEq

/-- Producer thread entry (src/stream.rs lines 57-77): seek the generator
to the worker's byte offset; on failure store `true` into the error flag
and return without entering the work loop, so no chunk is ever sent. -/
def prodInit (g : GenModel) (off : Nat) : ProdState :=
  if g.seekOk off then
    { error := false, exited := false, abort := false,
      level := 0, queue := [], index := 0 }
  else
    { error := true, exited := true, abort := false,
      level := 0, queue := [], index := 0 }

/-- One iteration of the producer work loop (src/stream.rs lines 78-98),
with no concurrent consumer activity: an exited thread stays exited; if
the abort flag is set the loop exits; if `level < LEVEL_THRES` the
generator fills the next chunk, which is sent, and the level and local
index are incremented; otherwise the thread sleeps (no state change). -/
def prodStep (g : GenModel) (cs off : Nat) (s : ProdState) : ProdState :=
  if s.exited then s
  else if s.abort then { s with exited := true }
  else if s.level < LEVEL_THRES then
    { s with queue := s.queue ++ [⟨s.index, chunkData g.stream cs off s.index⟩],
             level := s.level + 1, index := s.index + 1 }
  else s

/-- The producer state after `n` loop iterations following activation at
byte offset `off`, with the consumer taking no chunks. -/
def prodRun (g : GenModel) (cs off : Nat) : Nat → ProdState
  | 0 => prodInit g off
  | n + 1 => prodStep g cs off (prodRun g cs off n)

/-- Consumer-visible worker state used by `DtStream::get_chunk`. -/
structure WorkerState where
  isActive : Bool
  error : Bool
  queue : List DtStreamChunkM
  level : Int
deriving DecidableEq

/-- The consumer-visible view of a producer state (worker active). -/
def workerView (p : ProdState) : WorkerState :=
  { isActive := true, error := p.error, queue := p.queue, level := p.level }

/-- Result of a non-blocking pull. -/
inductive PullRes where
  | fail
  | empty
  | got (c : DtStreamChunkM)
deriving DecidableEq

/-- Embedding of `DtStream::get_chunk` (src/stream.rs lines 234-252): if inactive,
`None`; if the thread error flag is set, an error; otherwise `try_recv`
pops the oldest queued chunk (decrementing the level) or yields `None`. -/
def dtStreamGetChunk (s : WorkerState) : PullRes × WorkerState :=
  if s.isActive then
    if s.error then (.fail, s)
    else
      match s.queue with
      | [] => (.empty, s)
      | c :: rest => (.got c, { s with queue := rest, level := s.level - 1 })
  else (.empty, s)

/-- Embedding of `DtStream::activate` (src/stream.rs lines 193-198): stop any prior
thread, spawn the producer at the given byte offset, and return `Ok(())`
unconditionally; the spawned producer's initial state is `prodInit`. -/
def dtStreamActivate (g : GenModel) (off : Nat) : Except String ProdState :=
  Except.ok (prodInit g off)

theorem prodInit_seekFail (g : GenModel) (off : Nat)
    (h : g.seekOk off = false) :
    prodInit g off =
      { error := true, exited := true, abort := false,
        level := 0, queue := [], index := 0 } := by
  simp [prodInit, h]

theorem prodStep_exited (g : GenModel) (cs off : Nat) (s : ProdState)
    (h : s.exited = true) : prodStep g cs off s = s := by
  simp [prodStep, h]

theorem prodRun_seekFail (g : GenModel) (cs off : Nat)
    (h : g.seekOk off = false) (n : Nat) :
    prodRun g cs off n = prodInit g off := by
  induction n with
  | zero => rfl
  | succ n ih =>
      simp only [prodRun, ih]
      exact prodStep_exited g cs off _ (by simp [prodInit, h])

theorem dtStreamGetChunk_error (s : WorkerState)
    (ha : s.isActive = true) (he : s.error = true) :
    dtStreamGetChunk s = (.fail, s) := by
  simp [dtStreamGetChunk, ha, he]

/-- C6: If the generator's seek fails at producer-thread entry after
activation, the producer sets the error flag and exits without producing
any chunk (for every number of elapsed loop iterations, the queue stays
empty and the error flag stays set), and every try_pull on the active
worker in that condition returns an error — and, since the error return
leaves the state unchanged, so does every subsequent one. -/
theorem seekFail_error_surfaced (g : GenModel) (cs off : Nat)
    (h : g.seekOk off = false) :
    (∀ n, (prodRun g cs off n).error = true ∧
          (prodRun g cs off n).queue = [] ∧
          dtStreamGetChunk (workerView (prodRun g cs off n)) =
            (.fail, workerView (prodRun g cs off n))) ∧
    (∀ s : WorkerState, s.isActive = true → s.error = true →
      dtStreamGetChunk s = (.fail, s)) := by
  constructor
  · intro n
    rw [prodRun_seekFail g cs off h n, prodInit_seekFail g off h]
    refine ⟨rfl, rfl, ?_⟩
    exact dtStreamGetChunk_error _ rfl rfl
  · exact dtStreamGetChunk_error

/-- Witness for `seekFail_error_surfaced` at a concrete generator whose
seek always fails. -/
theorem seekFail_error_surfaced_witness :
    (GenModel.mk (fun _ => false) (fun p => p)).seekOk 0 = false ∧
    (prodRun (GenModel.mk (fun _ => false) (fun p => p)) 4 0 3).queue = [] := by
  exact ⟨rfl, ((seekFail_error_surfaced
    (GenModel.mk (fun _ => false) (fun p => p)) 4 0 rfl).1 3).2.1⟩

theorem prodRun_level_eq_length (g : GenModel) (cs off : Nat) (n : Nat) :
    (prodRun g cs off n).level = (prodRun g cs off n).queue.length ∧
    (prodRun g cs off n).queue.length ≤ 8 := by
  induction n with
  | zero =>
      unfold prodRun prodInit
      split <;> simp
  | succ n ih =>
      obtain ⟨h1, h2⟩ := ih
      unfold prodRun prodStep
      split
      · exact ⟨h1, h2⟩
      · split
        · exact ⟨h1, h2⟩
        · split
          · rename_i hlt
            constructor
            · simp [h1]
            · simp only [List.length_append, List.length_cons,
                List.length_nil]
              rw [h1] at hlt
              simp only [LEVEL_THRES] at hlt
              omega
          · exact ⟨h1, h2⟩

/-- C7: In every reachable state of the producer loop, the producer
generates and pushes a chunk only when the pending level is below
`LEVEL_THRES = 8` — at or above the threshold a non-exited, non-aborted
producer sleeps, leaving the state unchanged — hence while the consumer
takes no chunks a worker never buffers more than `LEVEL_THRES` chunks. -/
theorem producer_level_bounded (g : GenModel) (cs off : Nat) :
    (∀ s : ProdState, s.exited = false → s.abort = false →
      LEVEL_THRES ≤ s.level → prodStep g cs off s = s) ∧
    (∀ n, (prodRun g cs off n).queue.length ≤ 8) := by
  constructor
  · intro s he ha hl
    simp [prodStep, he, ha, not_lt.mpr hl]
  · intro n
    exact (prodRun_level_eq_length g cs off n).2

/-- Witness for `producer_level_bounded`: a saturated state is left
unchanged, and after 20 iterations at most 8 chunks are queued. -/
theorem producer_level_bounded_witness :
    prodStep (GenModel.mk (fun _ => true) (fun p => p)) 4 0
      { error := false, exited := false, abort := false,
        level := 8, queue := [], index := 0 } =
      { error := false, exited := false, abort := false,
        level := 8, queue := [], index := 0 } ∧
    (prodRun (GenModel.mk (fun _ => true) (fun p => p)) 4 0 20).queue.length ≤ 8 := by
  exact ⟨(producer_level_bounded _ 4 0).1 _ rfl rfl (by decide),
         (producer_level_bounded _ 4 0).2 20⟩

/-! ## Aggregator activation (src/stream_aggregator.rs lines 91-127) -/

/-- The values interpolated into the misalignment warning printed by
`DtStreamAgg::activate` (src/stream_aggregator.rs lines 96-108): the
original offset, the chunk size, and the adjusted offset. (The printed
text additionally renders the same three values through the external
`prettybytes` helper, which adds no information.) -/
structure AggWarning where
  original : Nat
  chunkSize : Nat
  adjusted : Nat
deriving DecidableEq

/-- Result record of `DtStreamAgg::activate` (src/stream_aggregator.rs lines
91-127): the possibly-adjusted byte offset, the warning emitted if the
offset was misaligned, the new `current_index`, and the byte offset each
worker `i` is activated at. -/
structure AggActivation where
  adjusted : Nat
  warning : Option AggWarning
  currentIndex : Nat
  threadOffset : Nat → Nat

/-- Embedding of `DtStreamAgg::activate` (src/stream_aggregator.rs lines 91-127):
round a misaligned offset down to a chunk boundary (warning), then
`chunk_index = byte_offset / chunk_size`, `current_index = chunk_index %
num_threads`, and each worker `i` starts at `(iteration + 1) ·
chunk_size` if `i < current_index`, else `iteration · chunk_size`, with
`iteration = chunk_index / num_threads`. -/
def aggActivate (N cs byteOffset : Nat) : AggActivation :=
  let adj := if byteOffset % cs ≠ 0 then byteOffset - byteOffset % cs
             else byteOffset
  let warning : Option AggWarning :=
    if byteOffset % cs ≠ 0 then
      some ⟨byteOffset, cs, byteOffset - byteOffset % cs⟩
    else none
  let chunkIndex := adj / cs
  let currentIndex := chunkIndex % N
  { adjusted := adj, warning := warning, currentIndex := currentIndex,
    threadOffset := fun i =>
      let iteration := chunkIndex / N
      if i < currentIndex then (iteration + 1) * cs else iteration * cs }

/-- C2: For every chunk-aligned byte offset `k · cs` and worker count
`N`, `DtStreamAgg::activate` computes `chunk_index = byte_offset / cs`
and `current_index = chunk_index mod N`, and activates worker `i` at
`(iteration + 1) · cs` when `i < current_index` and at `iteration · cs`
otherwise, where `iteration = chunk_index / N`. -/
theorem aggActivate_aligned_offsets (N cs k : Nat) (hcs : 0 < cs) :
    (aggActivate N cs (k * cs)).currentIndex = k * cs / cs % N ∧
    (∀ i, (aggActivate N cs (k * cs)).threadOffset i =
      if i < k * cs / cs % N then (k * cs / cs / N + 1) * cs
      else (k * cs / cs / N) * cs) := by
  have hmod : k * cs % cs = 0 := Nat.mul_mod_left k cs
  constructor
  · simp [aggActivate, hmod]
  · intro i
    simp [aggActivate, hmod]

/-- Witness for `aggActivate_aligned_offsets` at `N = 2`, `cs = 4`,
`k = 5`. -/
theorem aggActivate_aligned_offsets_witness :
    (aggActivate 2 4 (5 * 4)).currentIndex = 5 * 4 / 4 % 2 ∧
    (aggActivate 2 4 (5 * 4)).threadOffset 0 =
      if 0 < 5 * 4 / 4 % 2 then (5 * 4 / 4 / 2 + 1) * 4
      else (5 * 4 / 4 / 2) * 4 := by
  obtain ⟨h1, h2⟩ := aggActivate_aligned_offsets 2 4 5 (by decide)
  exact ⟨h1, h2 0⟩

theorem aligned_sub_eq (off cs : Nat) : off - off % cs = cs * (off / cs) := by
  have h := Nat.mod_add_div off cs
  omega

theorem aligned_sub_mod (off cs : Nat) : (off - off % cs) % cs = 0 := by
  rw [aligned_sub_eq]
  exact Nat.mul_mod_right cs (off / cs)

theorem aligned_sub_div (off cs : Nat) (hcs : 0 < cs) :
    (off - off % cs) / cs = off / cs := by
  rw [aligned_sub_eq]
  exact Nat.mul_div_cancel_left _ hcs

/-- C3: For every byte offset, `DtStreamAgg::activate(offset)` returns
`offset - (offset mod chunk_size)`; when the offset is misaligned it
emits a warning naming the original offset, the chunk size and the
adjusted offset (and no warning when aligned); and the activation state
(current index and every per-worker offset, which determine the produced
stream) equals that of activating at the aligned offset. -/
theorem aggActivate_alignment_policy (N cs off : Nat) (hcs : 0 < cs) :
    (aggActivate N cs off).adjusted = off - off % cs ∧
    (off % cs ≠ 0 → (aggActivate N cs off).warning =
      some ⟨off, cs, off - off % cs⟩) ∧
    (off % cs = 0 → (aggActivate N cs off).warning = none) ∧
    (aggActivate N cs off).currentIndex =
      (aggActivate N cs (off - off % cs)).currentIndex ∧
    (∀ i, (aggActivate N cs off).threadOffset i =
      (aggActivate N cs (off - off % cs)).threadOffset i) := by
  have hdiv : (off - off % cs) / cs = off / cs := aligned_sub_div off cs hcs
  have hmod : (off - off % cs) % cs = 0 := aligned_sub_mod off cs
  refine ⟨?_, ?_, ?_, ?_, ?_⟩
  · by_cases h : off % cs = 0
    · simp [aggActivate, h]
    · simp [aggActivate, h]
  · intro h; simp [aggActivate, h]
  · intro h; simp [aggActivate, h]
  · by_cases h : off % cs = 0
    · simp [aggActivate, h, Nat.sub_zero]
    · simp [aggActivate, h, hdiv, hmod, aligned_sub_div, aligned_sub_mod]
  · intro i
    by_cases h : off % cs = 0
    · simp [aggActivate, h, Nat.sub_zero]
    · simp [aggActivate, h, hdiv, hmod]

/-- Witness for `aggActivate_alignment_policy` at `N = 2`, `cs = 4`,
`off = 7` (misaligned). -/
theorem aggActivate_alignment_policy_witness :
    (aggActivate 2 4 7).adjusted = 7 - 7 % 4 ∧
    (aggActivate 2 4 7).warning = some ⟨7, 4, 7 - 7 % 4⟩ := by
  obtain ⟨h1, h2, _⟩ := aggActivate_alignment_policy 2 4 7 (by decide)
  exact ⟨h1, h2 (by decide)⟩

/-- The loop of `DtStreamAgg::activate` that activates each stream at its
thread offset, propagating any error with `?`
(src/stream_aggregator.rs lines 113-123). -/
def activateStreams (gens : Nat → GenModel) (act : AggActivation) :
    List Nat → Except String (List ProdState)
  | [] => Except.ok []
  | i :: rest => do
    let p ← dtStreamActivate (gens i) (act.threadOffset i)
    let ps ← activateStreams gens act rest
    Except.ok (p :: ps)

/-- Embedding of `DtStreamAgg::activate` including the error propagation from each
`DtStream::activate` call: activate workers `0..N`, then return `Ok` of
the adjusted offset together with the spawned producer states. -/
def aggActivateE (gens : Nat → GenModel) (N cs byteOffset : Nat) :
    Except String (Nat × List ProdState) := do
  let act := aggActivate N cs byteOffset
  let ps ← activateStreams gens act (List.range N)
  Except.ok (act.adjusted, ps)

theorem activateStreams_ok (gens : Nat → GenModel) (act : AggActivation)
    (l : List Nat) :
    activateStreams gens act l =
      Except.ok (l.map (fun i => prodInit (gens i) (act.threadOffset i))) := by
  induction l with
  | nil => rfl
  | cons i rest ih =>
      simp [activateStreams, dtStreamActivate, ih, Bind.bind, Except.bind]

/-- C9: For every generator family, worker count, chunk size and byte
offset, `DtStream::activate` returns `Ok` — a generator seek failure is
never reported synchronously — so `DtStreamAgg::activate` returns
`Ok(adjusted_offset)` for every input; when a seek does fail, the failure
is observable only through a later try_pull, which errors. -/
theorem activate_never_fails (gens : Nat → GenModel) (N cs off : Nat) :
    (∀ g o, dtStreamActivate g o = Except.ok (prodInit g o)) ∧
    aggActivateE gens N cs off =
      Except.ok ((aggActivate N cs off).adjusted,
        (List.range N).map
          (fun i => prodInit (gens i) ((aggActivate N cs off).threadOffset i))) ∧
    (∀ g o, g.seekOk o = false →
      (dtStreamGetChunk (workerView (prodInit g o))).1 = .fail) := by
  refine ⟨fun g o => rfl, ?_, ?_⟩
  · simp [aggActivateE, activateStreams_ok, Bind.bind, Except.bind]
  · intro g o h
    rw [prodInit_seekFail g o h]
    rfl

/-- Witness for `activate_never_fails`: an always-failing generator still
activates with `Ok`, and its first pull errors. -/
theorem activate_never_fails_witness :
    (dtStreamActivate (GenModel.mk (fun _ => false) (fun p => p)) 0 =
      Except.ok (prodInit (GenModel.mk (fun _ => false) (fun p => p)) 0)) ∧
    (dtStreamGetChunk (workerView
      (prodInit (GenModel.mk (fun _ => false) (fun p => p)) 0))).1 = .fail := by
  obtain ⟨h1, _, h3⟩ :=
    activate_never_fails (fun _ => GenModel.mk (fun _ => false) (fun p => p)) 1 4 0
  exact ⟨h1 _ 0, h3 _ 0 rfl⟩

/-! ## Aggregated pull sequence (src/stream_aggregator.rs lines 139-167)

`wait_chunk` spins on `get_chunk` until a chunk arrives, so a run of
blocking pulls is the iteration of the successful-pull step: take the
next queued chunk of worker `current_index` (workers emit their chunks in
strictly increasing index order) and advance `current_index` modulo the
worker count. -/

/-- Aggregator pull state for a run of successful pulls: the round-robin
index and, per worker, how many chunks have been pulled from it. -/
structure AggPullState where
  currentIndex : Nat
  pulled : Nat → Nat

/-- One successful `DtStreamAgg::get_chunk` (lines 139-154) as it acts on
the pull state: the chunk comes from worker `current_index`, which is
then advanced modulo `N`. -/
def aggPullStep (N : Nat) (s : AggPullState) : AggPullState :=
  { currentIndex := (s.currentIndex + 1) % N,
    pulled := fun i => if i = s.currentIndex then s.pulled i + 1
                       else s.pulled i }

/-- The pull state after `t` successful pulls. -/
def aggPullIter (N : Nat) (s : AggPullState) : Nat → AggPullState
  | 0 => s
  | t + 1 => aggPullStep N (aggPullIter N s t)

/-- The pull state right after `DtStreamAgg::activate(byteOffset)`:
`current_index` as computed there, no chunks pulled yet. -/
def aggInitState (N cs byteOffset : Nat) : AggPullState :=
  { currentIndex := (aggActivate N cs byteOffset).currentIndex,
    pulled := fun _ => 0 }

/-- The worker that supplies the `t`-th (0-based) blocking pull after
activation at `byteOffset`. -/
def nthPullWorker (N cs byteOffset t : Nat) : Nat :=
  (aggPullIter N (aggInitState N cs byteOffset) t).currentIndex

/-- How many chunks that worker already delivered before the `t`-th pull:
the local index of the chunk it supplies. -/
def nthPullCount (N cs byteOffset t : Nat) : Nat :=
  (aggPullIter N (aggInitState N cs byteOffset) t).pulled
    (nthPullWorker N cs byteOffset t)

/-- The data of the `t`-th chunk pulled from the activated aggregator,
for per-worker keystreams `ks` (worker id → byte position → byte): the
supplying worker `w` was seeked to its thread offset and delivers its
next chunk in order. -/
def nthPullData (ks : Nat → Nat → Nat) (N cs byteOffset t : Nat) :
    List Nat :=
  chunkData (ks (nthPullWorker N cs byteOffset t)) cs
    ((aggActivate N cs byteOffset).threadOffset (nthPullWorker N cs byteOffset t))
    (nthPullCount N cs byteOffset t)

/-- The aggregate keystream at chunk granularity, per the global indexing
rule: global chunk position `p` holds chunk `p / N` of worker `p % N`,
i.e. bytes `[(p / N)·cs, (p / N + 1)·cs)` of that worker's keystream. -/
def aggKeystreamChunk (ks : Nat → Nat → Nat) (N cs p : Nat) : List Nat :=
  chunkData (ks (p % N)) cs (p / N * cs) 0

theorem succ_divmod (N m : Nat) (hN : 0 < N) :
    (m + 1) / N = m / N + (if m % N + 1 = N then 1 else 0) ∧
    (m + 1) % N = (if m % N + 1 = N then 0 else m % N + 1) := by
  have h := Nat.mod_add_div m N
  have hlt := Nat.mod_lt m hN
  by_cases hc : m % N + 1 = N
  · have hm : m + 1 = N * (m / N + 1) := by
      rw [Nat.mul_succ]
      omega
    refine ⟨?_, ?_⟩
    · rw [hm, Nat.mul_div_cancel_left _ hN]
      simp [hc]
    · rw [hm, Nat.mul_mod_right]
      simp [hc]
  · have hm : m + 1 = N * (m / N) + (m % N + 1) := by omega
    have hlt2 : m % N + 1 < N := by omega
    refine ⟨?_, ?_⟩
    · rw [hm, Nat.mul_add_div hN, Nat.div_eq_of_lt hlt2]
      simp [hc]
    · rw [hm, Nat.mul_add_mod, Nat.mod_eq_of_lt hlt2]
      simp [hc]

/-- Closed form of the pull state: after `t` successful pulls starting
from global chunk position `k`, the round-robin index is `(k + t) % N`,
and each worker's activation chunk offset plus its pulled count is the
index of the next chunk the stream position `k + t` demands from it. -/
theorem aggPullIter_closed (N k : Nat) (hN : 0 < N) (s0 : AggPullState)
    (h0ci : s0.currentIndex = k % N) (h0p : ∀ i, s0.pulled i = 0) :
    ∀ t, (aggPullIter N s0 t).currentIndex = (k + t) % N ∧
      (∀ i, i < N →
        (k / N + (if i < k % N then 1 else 0)) + (aggPullIter N s0 t).pulled i
          = (k + t) / N + (if i < (k + t) % N then 1 else 0)) := by
  intro t
  induction t with
  | zero =>
      refine ⟨h0ci, fun i _ => ?_⟩
      simp [aggPullIter, h0p i]
  | succ t ih =>
      obtain ⟨ihci, ihp⟩ := ih
      obtain ⟨hdiv, hmod⟩ := succ_divmod N (k + t) hN
      have hlt := Nat.mod_lt (k + t) hN
      constructor
      · show ((aggPullIter N s0 t).currentIndex + 1) % N = (k + (t + 1)) % N
        rw [ihci, ← Nat.add_assoc, hmod]
        by_cases hc : (k + t) % N + 1 = N
        · simp [hc]
        · simp [hc, Nat.mod_eq_of_lt (show (k + t) % N + 1 < N by omega)]
      · intro i hi
        show (k / N + (if i < k % N then 1 else 0)) +
          (if i = (aggPullIter N s0 t).currentIndex
            then (aggPullIter N s0 t).pulled i + 1
            else (aggPullIter N s0 t).pulled i)
          = (k + (t + 1)) / N + (if i < (k + (t + 1)) % N then 1 else 0)
        have hpi := ihp i hi
        rw [ihci, ← Nat.add_assoc, hdiv, hmod]
        split_ifs at hpi ⊢ <;> omega

theorem aggActivate_aligned_closed (N cs k : Nat) (hcs : 0 < cs) :
    (aggActivate N cs (k * cs)).currentIndex = k % N ∧
    (∀ i, (aggActivate N cs (k * cs)).threadOffset i =
      (k / N + (if i < k % N then 1 else 0)) * cs) := by
  have hmod : k * cs % cs = 0 := Nat.mul_mod_left k cs
  have hdiv : k * cs / cs = k := by
    rw [Nat.mul_div_cancel _ hcs]
  constructor
  · simp [aggActivate, hmod, hdiv]
  · intro i
    by_cases h : i < k % N
    · simp [aggActivate, hmod, hdiv, h, Nat.add_mul]
    · simp [aggActivate, hmod, hdiv, h]

theorem nthPull_closed (N cs k : Nat) (hN : 0 < N) (hcs : 0 < cs)
    (t : Nat) :
    nthPullWorker N cs (k * cs) t = (k + t) % N ∧
    (aggActivate N cs (k * cs)).threadOffset (nthPullWorker N cs (k * cs) t)
      + nthPullCount N cs (k * cs) t * cs = (k + t) / N * cs := by
  obtain ⟨hci0, hto⟩ := aggActivate_aligned_closed N cs k hcs
  have h := aggPullIter_closed N k hN (aggInitState N cs (k * cs))
    (by simp [aggInitState, hci0]) (fun i => rfl) t
  obtain ⟨hci, hp⟩ := h
  have hw : nthPullWorker N cs (k * cs) t = (k + t) % N := hci
  refine ⟨hw, ?_⟩
  have hwlt : (k + t) % N < N := Nat.mod_lt _ hN
  have hpw := hp ((k + t) % N) hwlt
  rw [if_neg (lt_irrefl ((k + t) % N))] at hpw
  rw [hw, hto]
  unfold nthPullCount
  rw [hw]
  rw [← Nat.add_mul, hpw]
  rfl

theorem chunkData_congr (f g : Nat → Nat) (cs o1 o2 n1 n2 : Nat)
    (hf : f = g) (ho : o1 + n1 * cs = o2 + n2 * cs) :
    chunkData f cs o1 n1 = chunkData g cs o2 n2 := by
  subst hf
  unfold chunkData
  apply List.map_congr_left
  intro b _
  have : o1 + n1 * cs + b = o2 + n2 * cs + b := by omega
  rw [Nat.add_assoc, Nat.add_assoc] at this
  rw [← Nat.add_assoc, ← Nat.add_assoc] at this
  rw [this]

/-- C1: For every per-worker keystream family, worker count `N`, chunk
size and chunk-aligned byte offset `k · cs`, the `t`-th chunk pulled in
order from the activated aggregator is global chunk `k + t` of the
deterministic aggregate keystream, in which worker `w`'s chunk `j`
occupies global chunk position `j · N + w`; equivalently, the stream
activated at offset `m · cs` equals the stream activated at `0` with its
first `m` chunks dropped. -/
theorem agg_global_indexing (ks : Nat → Nat → Nat) (N cs : Nat)
    (hN : 0 < N) (hcs : 0 < cs) :
    (∀ k t, nthPullData ks N cs (k * cs) t =
      aggKeystreamChunk ks N cs (k + t)) ∧
    (∀ m t, nthPullData ks N cs (m * cs) t = nthPullData ks N cs 0 (m + t)) := by
  have main : ∀ k t, nthPullData ks N cs (k * cs) t =
      aggKeystreamChunk ks N cs (k + t) := by
    intro k t
    obtain ⟨hw, hoff⟩ := nthPull_closed N cs k hN hcs t
    unfold nthPullData aggKeystreamChunk
    apply chunkData_congr
    · rw [hw]
    · rw [hoff]
      omega
  refine ⟨main, fun m t => ?_⟩
  have h0 : nthPullData ks N cs 0 (m + t) =
      aggKeystreamChunk ks N cs (0 + (m + t)) := by
    have := main 0 (m + t)
    rwa [Nat.zero_mul] at this
  rw [main m t, h0]
  simp [Nat.zero_add]

/-- Witness for `agg_global_indexing` at a concrete keystream family,
`N = 2`, `cs = 4`, activation chunk `k = 3`, pull `t = 5`. -/
theorem agg_global_indexing_witness :
    nthPullData (fun w p => w * 1000 + p) 2 4 (3 * 4) 5 =
      aggKeystreamChunk (fun w p => w * 1000 + p) 2 4 (3 + 5) ∧
    nthPullData (fun w p => w * 1000 + p) 2 4 (3 * 4) 5 =
      nthPullData (fun w p => w * 1000 + p) 2 4 0 (3 + 5) := by
  obtain ⟨h1, h2⟩ :=
    agg_global_indexing (fun w p => w * 1000 + p) 2 4 (by decide) (by decide)
  exact ⟨h1 3 5, h2 3 5⟩

/-! ## Aggregator non-blocking pull with explicit worker queues
(src/stream_aggregator.rs lines 139-154) and chunk release (lines 46-53) -/

/-- The type `DtStreamAggChunk`: the wrapped chunk plus the `thread_id` stored by
`DtStreamAgg::get_chunk` — in the source this field is assigned from
`self.current_index` after `current_index` has already been advanced. -/
structure AggChunkM where
  chunk : DtStreamChunkM
  threadId : Nat
deriving DecidableEq

/-- A worker as `DtStreamAgg::get_chunk` observes it: its error flag and
its queue of ready chunks (the workers are all active while the
aggregator is). -/
structure WorkerQ where
  error : Bool
  queue : List DtStreamChunkM
deriving DecidableEq

/-- The pull-relevant `DtStreamAgg` state (src/stream_aggregator.rs lines
55-61). -/
structure AggQState where
  numThreads : Nat
  workers : List WorkerQ
  currentIndex : Nat
  isActive : Bool
deriving DecidableEq

/-- Result type of `DtStreamAgg::get_chunk`. -/
inductive AggPullRes where
  | fail
  | empty
  | got (c : AggChunkM)
deriving DecidableEq

/-- Embedding of `DtStream::get_chunk` of an activated worker on its queue view:
the error flag is checked first, then `try_recv` pops the oldest chunk
(src/stream.rs lines 234-252). -/
def workerTryPull (w : WorkerQ) : PullRes × WorkerQ :=
  if w.error then (.fail, w)
  else
    match w.queue with
    | [] => (.empty, w)
    | c :: rest => (.got c, { w with queue := rest })

/-- Embedding of `DtStreamAgg::get_chunk` (src/stream_aggregator.rs lines 139-154):
if inactive, `None`; otherwise poll only the worker at `current_index`.
On error propagate; on `None` return `None` with nothing changed; on a
chunk, advance `current_index` modulo `num_threads` and wrap the chunk,
storing the already-advanced `current_index` as its `thread_id`. -/
def aggGetChunk (s : AggQState) : AggPullRes × AggQState :=
  if s.isActive then
    match workerTryPull (s.workers.getD s.currentIndex ⟨false, []⟩) with
    | (.fail, _) => (.fail, s)
    | (.empty, _) => (.empty, s)
    | (.got c, w') =>
        (.got ⟨c, (s.currentIndex + 1) % s.numThreads⟩,
         { s with workers := s.workers.set s.currentIndex w',
                  currentIndex := (s.currentIndex + 1) % s.numThreads })
  else (.empty, s)

/-- Embedding of `DtStreamAggChunk::drop` (src/stream_aggregator.rs lines 46-53):
the buffer is recycled into the cache slot keyed by the chunk's stored
`thread_id`. -/
def aggChunkDropSlot (c : AggChunkM) : Nat := c.threadId

theorem aggGetChunk_inactive (s : AggQState) (h : s.isActive = false) :
    aggGetChunk s = (.empty, s) := by
  obtain ⟨nt, ws, ci, act⟩ := s
  simp only at h
  subst h
  rfl

theorem aggGetChunk_error (s : AggQState) (ha : s.isActive = true)
    (he : (s.workers.getD s.currentIndex ⟨false, []⟩).error = true) :
    aggGetChunk s = (.fail, s) := by
  obtain ⟨nt, ws, ci, act⟩ := s
  simp only at ha he
  subst ha
  have hpull : workerTryPull (ws.getD ci ⟨false, []⟩) =
      (.fail, ws.getD ci ⟨false, []⟩) := by
    unfold workerTryPull
    rw [he]
    rfl
  show (match workerTryPull (ws.getD ci ⟨false, []⟩) with
    | (.fail, _) => ((.fail : AggPullRes), AggQState.mk nt ws ci true)
    | (.empty, _) => (.empty, AggQState.mk nt ws ci true)
    | (.got c, w') =>
        (.got ⟨c, (ci + 1) % nt⟩,
         { numThreads := nt, workers := ws.set ci w',
           currentIndex := (ci + 1) % nt, isActive := true })) =
    (.fail, AggQState.mk nt ws ci true)
  rw [hpull]

theorem aggGetChunk_empty (s : AggQState) (ha : s.isActive = true)
    (he : s.workers.getD s.currentIndex ⟨false, []⟩ = ⟨false, []⟩) :
    aggGetChunk s = (.empty, s) := by
  obtain ⟨nt, ws, ci, act⟩ := s
  simp only at ha he
  subst ha
  show (match workerTryPull (ws.getD ci ⟨false, []⟩) with
    | (.fail, _) => ((.fail : AggPullRes), AggQState.mk nt ws ci true)
    | (.empty, _) => (.empty, AggQState.mk nt ws ci true)
    | (.got c, w') =>
        (.got ⟨c, (ci + 1) % nt⟩,
         { numThreads := nt, workers := ws.set ci w',
           currentIndex := (ci + 1) % nt, isActive := true })) =
    (.empty, AggQState.mk nt ws ci true)
  rw [he]
  rfl

theorem aggGetChunk_got (s : AggQState) (c : DtStreamChunkM)
    (rest : List DtStreamChunkM) (ha : s.isActive = true)
    (hw : s.workers.getD s.currentIndex ⟨false, []⟩ = ⟨false, c :: rest⟩) :
    aggGetChunk s =
      (.got ⟨c, (s.currentIndex + 1) % s.numThreads⟩,
       { s with workers := s.workers.set s.currentIndex ⟨false, rest⟩,
                currentIndex := (s.currentIndex + 1) % s.numThreads }) := by
  obtain ⟨nt, ws, ci, act⟩ := s
  simp only at ha hw ⊢
  subst ha
  show (match workerTryPull (ws.getD ci ⟨false, []⟩) with
    | (.fail, _) => ((.fail : AggPullRes), AggQState.mk nt ws ci true)
    | (.empty, _) => (.empty, AggQState.mk nt ws ci true)
    | (.got c, w') =>
        (.got ⟨c, (ci + 1) % nt⟩,
         { numThreads := nt, workers := ws.set ci w',
           currentIndex := (ci + 1) % nt, isActive := true })) = _
  rw [hw]
  rfl

/-- C4 counterexample: with 2 workers, `current_index = 0` and a chunk
ready at worker 0, the pulled AggChunk does not carry the id of the
worker that produced it (worker 0, the pre-advance `current_index`): the
source stores `self.current_index` only after advancing it, so the chunk
carries id 1 and its release pushes the buffer to worker 1's slot. -/
theorem aggChunk_threadId_not_origin :
    (aggGetChunk ⟨2, [⟨false, [⟨0, [9, 9]⟩]⟩, ⟨false, []⟩], 0, true⟩).1 =
      .got ⟨⟨0, [9, 9]⟩, 1⟩ ∧
    aggChunkDropSlot ⟨⟨0, [9, 9]⟩, 1⟩ = 1 ∧ (1 : Nat) ≠ 0 := by
  exact ⟨rfl, rfl, by decide⟩

/-- C4 amended: the AggChunk returned by a successful pull carries the
post-advance `current_index`, i.e. `(w + 1) mod N` where `w` is the
originating worker, and on release the buffer is returned to that slot,
`(w + 1) mod N` — which coincides with the originating worker only when
`N = 1`. -/
theorem aggChunk_threadId_post_advance (s : AggQState)
    (c : DtStreamChunkM) (rest : List DtStreamChunkM)
    (ha : s.isActive = true)
    (hw : s.workers.getD s.currentIndex ⟨false, []⟩ = ⟨false, c :: rest⟩) :
    (aggGetChunk s).1 = .got ⟨c, (s.currentIndex + 1) % s.numThreads⟩ ∧
    aggChunkDropSlot ⟨c, (s.currentIndex + 1) % s.numThreads⟩ =
      (s.currentIndex + 1) % s.numThreads ∧
    (s.numThreads = 1 → (s.currentIndex + 1) % s.numThreads = 0) := by
  refine ⟨?_, rfl, ?_⟩
  · rw [aggGetChunk_got s c rest ha hw]
  · intro h1
    simp [h1, Nat.mod_one]

/-- Witness for `aggChunk_threadId_post_advance` at the concrete
two-worker state. -/
theorem aggChunk_threadId_post_advance_witness :
    (aggGetChunk ⟨2, [⟨false, [⟨0, [9, 9]⟩]⟩, ⟨false, []⟩], 0, true⟩).1 =
      .got ⟨⟨0, [9, 9]⟩, (0 + 1) % 2⟩ := by
  exact (aggChunk_threadId_post_advance
    ⟨2, [⟨false, [⟨0, [9, 9]⟩]⟩, ⟨false, []⟩], 0, true⟩
    ⟨0, [9, 9]⟩ [] rfl rfl).1

theorem aggPullIter_currentIndex (N : Nat) (s0 : AggPullState)
    (h : s0.currentIndex < N) :
    ∀ t, (aggPullIter N s0 t).currentIndex = (s0.currentIndex + t) % N := by
  intro t
  induction t with
  | zero =>
      show s0.currentIndex = (s0.currentIndex + 0) % N
      rw [Nat.add_zero, Nat.mod_eq_of_lt h]
  | succ t ih =>
      show ((aggPullIter N s0 t).currentIndex + 1) % N
        = (s0.currentIndex + (t + 1)) % N
      rw [ih, Nat.mod_add_mod, ← Nat.add_assoc]

/-- C5: the aggregator's non-blocking pull polls only the worker at
`current_index`: when the aggregator is inactive or that worker has no
chunk, the result is `None` and the state (in particular
`current_index`) is unchanged; a worker error propagates unchanged too;
only a successful pull pops exactly that worker's queue and advances
`current_index` by 1 modulo N — so the workers supplying successive
successful pulls are `current_index, current_index + 1, …` modulo N. -/
theorem agg_pull_strict_round_robin (N : Nat) (hN : 0 < N) :
    (∀ s : AggQState, s.isActive = false → aggGetChunk s = (.empty, s)) ∧
    (∀ s : AggQState, s.isActive = true →
      (s.workers.getD s.currentIndex ⟨false, []⟩).error = true →
      aggGetChunk s = (.fail, s)) ∧
    (∀ s : AggQState, s.isActive = true →
      s.workers.getD s.currentIndex ⟨false, []⟩ = ⟨false, []⟩ →
      aggGetChunk s = (.empty, s)) ∧
    (∀ (s : AggQState) (c : DtStreamChunkM) (rest : List DtStreamChunkM),
      s.isActive = true →
      s.workers.getD s.currentIndex ⟨false, []⟩ = ⟨false, c :: rest⟩ →
      (aggGetChunk s).2.currentIndex = (s.currentIndex + 1) % s.numThreads ∧
      (aggGetChunk s).2.workers =
        s.workers.set s.currentIndex ⟨false, rest⟩) ∧
    (∀ s0 : AggPullState, s0.currentIndex < N →
      ∀ t, (aggPullIter N s0 t).currentIndex = (s0.currentIndex + t) % N) := by
  refine ⟨?_, ?_, ?_, ?_, fun s0 h t => aggPullIter_currentIndex N s0 h t⟩
  · exact aggGetChunk_inactive
  · exact aggGetChunk_error
  · exact aggGetChunk_empty
  · intro s c rest ha hw
    rw [aggGetChunk_got s c rest ha hw]
    exact ⟨rfl, rfl⟩

/-- Witness for `agg_pull_strict_round_robin`: concrete checks of the
none-case and the round-robin sequence with `N = 3`. -/
theorem agg_pull_strict_round_robin_witness :
    aggGetChunk ⟨3, [⟨false, []⟩, ⟨false, []⟩, ⟨false, []⟩], 1, true⟩ =
      (.empty, ⟨3, [⟨false, []⟩, ⟨false, []⟩, ⟨false, []⟩], 1, true⟩) ∧
    (aggPullIter 3 ⟨1, fun _ => 0⟩ 4).currentIndex = (1 + 4) % 3 := by
  obtain ⟨h1, h2, h3, h4, h5⟩ := agg_pull_strict_round_robin 3 (by decide)
  exact ⟨h3 _ rfl rfl, h5 ⟨1, fun _ => 0⟩ (by decide) 4⟩

/-! ## Verify loop (src/disktest.rs lines 131-201)

The device/file content from the seek position on is a finite byte list;
a `File::read` into the unfilled part of the read buffer returns
`min(remaining file bytes, requested)` bytes, and `0` at end-of-file.
The expected data is the aggregator's chunk stream after activation:
chunk `c` holds bytes `[c·cs, (c+1)·cs)` of the aggregate keystream
`expected`. The abort flag is never set here.

Each round of the source loop fills the read buffer up to
`read_len = min(chunk_size, bytes_left)` (possibly over several `read`
calls; against a static file these amount to one read of
`min(file remaining, read_len)` followed, if short, by a read returning
0). A full buffer, or a non-empty buffer at end-of-file, is compared
byte-wise against the next pulled chunk; a mismatch at buffer index `i`
aborts with the failing byte position `bytes_read + i`; exhausting
`bytes_left` or hitting end-of-file finalizes with `Ok(bytes_read)`. -/

/-- The comparison loop of `Disktest::verify` (src/disktest.rs lines
160-165): index of the first byte of `buf` differing from the chunk data
`dat`, starting at buffer index `j`, if any. -/
def firstMismatchIdx (dat : Nat → Nat) : List Nat → Nat → Option Nat
  | [], _ => none
  | b :: rest, j =>
      if b = dat j then firstMismatchIdx dat rest (j + 1) else some j

/-- One-pass embedding of the `Disktest::verify` loop on a static file
remainder, with `chunkIdx` counting the chunks pulled so far (the data of
the next pulled chunk is byte `chunkIdx · cs + i` of the aggregate
keystream at buffer index `i`). `Except.error p` is the
`Data MISMATCH at Byte p` outcome. -/
def verifyGo (expected : Nat → Nat) (cs : Nat) (hcs : 0 < cs)
    (file : List Nat) (chunkIdx bytesLeft bytesRead : Nat) :
    Except Nat Nat :=
  if hfull : min file.length (min cs bytesLeft) = min cs bytesLeft then
    match firstMismatchIdx (fun i => expected (chunkIdx * cs + i))
        (file.take (min cs bytesLeft)) 0 with
    | some i => Except.error (bytesRead + i)
    | none =>
        if hleft : bytesLeft - min cs bytesLeft = 0 then
          Except.ok (bytesRead + min cs bytesLeft)
        else
          verifyGo expected cs hcs (file.drop (min cs bytesLeft))
            (chunkIdx + 1) (bytesLeft - min cs bytesLeft)
            (bytesRead + min cs bytesLeft)
  else
    if min file.length (min cs bytesLeft) = 0 then Except.ok bytesRead
    else
      match firstMismatchIdx (fun i => expected (chunkIdx * cs + i))
          (file.take (min file.length (min cs bytesLeft))) 0 with
      | some i => Except.error (bytesRead + i)
      | none => Except.ok (bytesRead + min file.length (min cs bytesLeft))
  termination_by file.length
  decreasing_by
    simp only [List.length_drop]
    omega

/-- Embedding of `Disktest::verify(seek, max_bytes)` (src/disktest.rs lines 131-201)
on the file content from the seek position on, with the aggregator
activated at stream position 0. -/
def disktestVerify (expected : Nat → Nat) (cs : Nat) (hcs : 0 < cs)
    (file : List Nat) (maxBytes : Nat) : Except Nat Nat :=
  verifyGo expected cs hcs file 0 maxBytes 0

theorem firstMismatchIdx_none (dat : Nat → Nat) :
    ∀ (buf : List Nat) (j : Nat),
      (∀ i, i < buf.length → buf.getD i 0 = dat (j + i)) →
      firstMismatchIdx dat buf j = none := by
  intro buf
  induction buf with
  | nil => intro j _; rfl
  | cons b rest ih =>
      intro j h
      have hb : b = dat j := by
        have h0 := h 0 (by simp)
        simpa using h0
      unfold firstMismatchIdx
      rw [if_pos hb]
      apply ih
      intro i hi
      have hs := h (i + 1) (by simpa using Nat.succ_lt_succ hi)
      simp only [List.getD_cons_succ] at hs
      rw [hs]
      congr 1
      omega

theorem verifyGo_short_ok (expected : Nat → Nat) (cs : Nat)
    (hcs : 0 < cs) :
    ∀ fl (file : List Nat), file.length = fl →
    ∀ chunkIdx bytesLeft bytesRead, bytesRead = chunkIdx * cs →
    file.length < bytesLeft →
    (∀ i, i < file.length → file.getD i 0 = expected (bytesRead + i)) →
    verifyGo expected cs hcs file chunkIdx bytesLeft bytesRead =
      Except.ok (bytesRead + file.length) := by
  intro fl
  induction fl using Nat.strong_induction_on with
  | _ fl ih =>
    intro file hfl chunkIdx bytesLeft bytesRead hbr hshort hmatch
    rw [verifyGo]
    by_cases hfull : min file.length (min cs bytesLeft) = min cs bytesLeft
    · -- the file still covers a full read buffer
      have hcsle : cs ≤ bytesLeft := by omega
      have hrl : min cs bytesLeft = cs := min_eq_left hcsle
      have hcsfl : cs ≤ file.length := by omega
      have hnone : firstMismatchIdx (fun i => expected (chunkIdx * cs + i))
          (file.take (min cs bytesLeft)) 0 = none := by
        apply firstMismatchIdx_none
        intro i hi
        simp only [List.length_take] at hi
        have hilt : i < file.length := by omega
        rw [List.getD_eq_getElem?_getD, List.getElem?_take_of_lt (by omega),
          ← List.getD_eq_getElem?_getD]
        rw [hmatch i hilt, hbr]
        simp
      rw [dif_pos hfull, hnone]
      have hleft : ¬ (bytesLeft - min cs bytesLeft = 0) := by omega
      rw [dif_neg hleft]
      have hdl : (file.drop (min cs bytesLeft)).length = file.length - cs := by
        simp [hrl]
      have hm2 : file.length - cs < fl := by omega
      have hbr2 : bytesRead + min cs bytesLeft = (chunkIdx + 1) * cs := by
        rw [hrl, Nat.succ_mul, hbr]
      have hlen2 : (file.drop (min cs bytesLeft)).length <
          bytesLeft - min cs bytesLeft := by
        rw [hdl, hrl]
        omega
      have hmatch2 : ∀ i, i < (file.drop (min cs bytesLeft)).length →
          (file.drop (min cs bytesLeft)).getD i 0 =
            expected (bytesRead + min cs bytesLeft + i) := by
        intro i hi
        rw [hdl] at hi
        rw [List.getD_eq_getElem?_getD, List.getElem?_drop,
          ← List.getD_eq_getElem?_getD]
        rw [hrl]
        have hm := hmatch (cs + i) (by omega)
        rw [hm]
        congr 1
        omega
      rw [ih (file.length - cs) hm2 (file.drop (min cs bytesLeft)) hdl
        (chunkIdx + 1) (bytesLeft - min cs bytesLeft)
        (bytesRead + min cs bytesLeft) hbr2 hlen2 hmatch2]
      show Except.ok (bytesRead + min cs bytesLeft +
          (file.drop (min cs bytesLeft)).length) =
        Except.ok (bytesRead + file.length)
      rw [hdl, hrl]
      congr 1
      omega
    · -- the file ends inside the read buffer: end-of-file round
      rw [dif_neg hfull]
      have hflt : file.length < min cs bytesLeft := by omega
      have hmin : min file.length (min cs bytesLeft) = file.length :=
        min_eq_left (le_of_lt hflt)
      by_cases h0 : min file.length (min cs bytesLeft) = 0
      · rw [if_pos h0]
        have : file.length = 0 := by omega
        rw [this, Nat.add_zero]
      · rw [if_neg h0]
        have hnone : firstMismatchIdx (fun i => expected (chunkIdx * cs + i))
            (file.take (min file.length (min cs bytesLeft))) 0 = none := by
          apply firstMismatchIdx_none
          intro i hi
          simp only [List.length_take] at hi
          have hilt : i < file.length := by omega
          rw [List.getD_eq_getElem?_getD, List.getElem?_take_of_lt (by omega),
            ← List.getD_eq_getElem?_getD]
          rw [hmatch i hilt, hbr]
          simp
        rw [hnone, hmin]

/-- C10: For every `max_bytes`, if the file reaches end-of-file before
`max_bytes` bytes have been read and every byte read equals the expected
keystream byte, `Disktest::verify` returns `Ok` with the number of bytes
actually read — a short file is success, not an error. -/
theorem verify_short_file_ok (expected : Nat → Nat) (cs : Nat)
    (hcs : 0 < cs) (file : List Nat) (maxBytes : Nat)
    (hshort : file.length < maxBytes)
    (hmatch : ∀ i, i < file.length → file.getD i 0 = expected i) :
    disktestVerify expected cs hcs file maxBytes =
      Except.ok file.length := by
  unfold disktestVerify
  rw [verifyGo_short_ok expected cs hcs file.length file rfl 0 maxBytes 0
    (by simp) hshort (by simpa using hmatch)]
  rw [Nat.zero_add]

/-- Witness for `verify_short_file_ok`: a 6-byte file matching the
identity keystream, verified with `max_bytes = 100` and `cs = 4`,
succeeds with 6 bytes read. -/
theorem verify_short_file_ok_witness :
    disktestVerify (fun p => p) 4 (by decide) [0, 1, 2, 3, 4, 5] 100 =
      Except.ok 6 := by
  have h := verify_short_file_ok (fun p => p) 4 (by decide)
    [0, 1, 2, 3, 4, 5] 100 (by decide) (by decide)
  simpa using h

end Disktest
